import Mathlib

/-!
Verification of the core helper functions of a KZG-style polynomial
multi-proof library (`src/lib.rs`).  Polynomials are embedded as dense
coefficient lists (low-degree first), exactly as the library's
`DensePolynomial` stores them; `toPoly` maps such a list to the Mathlib
polynomial it denotes.  Group-valued evaluation-domain transforms
(arkworks' `GeneralEvaluationDomain`), an external collaborator of the
library, are abstracted by `DomainModel`: a domain constructor returning
the size of the domain built for a requested size (at least the request,
`none` when the field supports no such domain), and forward/inverse
transforms on vectors of that exact size that are mutually inverse.
Serialization (`CanonicalSerialize`), also external, is abstracted by a
byte-encoding function of fixed width.
-/

set_option linter.unusedSectionVars false

namespace KZGMP

/-- The library's error enum (`Error` in `src/lib.rs`), field for field. -/
inductive Error where
  | TooManyScalars (n_coeffs expected_max : Nat)
  | DivisorIsZero
  | NoPolynomialsGiven
  | EvalsIncorrectSize (poly n expected : Nat)
  | SerializationError
  | NoPointsGiven
  | EvalsAndPolysDifferentSizes (n_eval_rows n_polys : Nat)
  | EvalsAndPointsDifferentSizes (n_points n_evals : Nat)
  | EvalsAndCommitsDifferentSizes (n_evals n_commits : Nat)
  | DomainConstructionFailed (size : Nat)
  deriving DecidableEq

section PolyDefs

variable {F : Type*} [Field F] [DecidableEq F]

/-- The Mathlib polynomial denoted by a low-degree-first coefficient list
(the semantics of an arkworks `DensePolynomial`'s `coeffs` vector). -/
noncomputable def toPoly : List F → Polynomial F
  | [] => 0
  | a :: t => Polynomial.C a + Polynomial.X * toPoly t

/-- The polynomial denoted by a high-degree-first coefficient list: the
head is the leading coefficient.  `toPoly l = polyOfH l.reverse`. -/
noncomputable def polyOfH : List F → Polynomial F
  | [] => 0
  | a :: t => Polynomial.C a * Polynomial.X ^ t.length + polyOfH t

/-- Coefficient-wise sum of two dense coefficient vectors (the shorter one
padded with zeros): arkworks' `DensePolynomial` addition, without the
trailing-zero normalization, which `toPoly` erases. -/
def polyAdd : List F → List F → List F
  | [], m => m
  | l, [] => l
  | x :: l, y :: m => (x + y) :: polyAdd l m

/-- Convolution of two non-empty coefficient vectors, as computed by
`DensePolynomial::naive_mul`'s double loop. -/
def mulAux : List F → List F → List F
  | [], _ => []
  | x :: xs, b => polyAdd (b.map fun y => x * y) (0 :: mulAux xs b)

/-- `DensePolynomial::naive_mul`: zero (the empty vector) when either
factor is zero, otherwise the coefficient convolution. -/
def naive_mul (a b : List F) : List F :=
  if a.isEmpty || b.isEmpty then [] else mulAux a b

/-- `vanishing_polynomial` (`src/lib.rs:128`): maps each point `p` to the
monomial `X - p` (coefficients `[-p, 1]`) and folds `naive_mul` over them
starting from the constant polynomial `1`. -/
def vanishing_polynomial (points : List F) : List F :=
  (points.map fun p => [-p, 1]).foldl (fun x y => naive_mul x y) [1]

/-- `linear_combination` (`src/lib.rs:149`): zips the polynomials with the
challenges, scales each polynomial by its challenge, and reduces by
polynomial addition; `none` when the zipped sequence is empty. -/
def linear_combination (polynomials : List (List F)) (challenges : List F) :
    Option (List F) :=
  match (polynomials.zip challenges).map fun pc => pc.1.map fun y => y * pc.2 with
  | [] => none
  | x :: xs => some (xs.foldl (fun a b => polyAdd a b) x)

/-- All coefficients are zero: `DensePolynomial::is_zero` on the divisor in
`poly_div_q_r`. -/
def isZeroP (p : List F) : Bool :=
  p.all fun x => decide (x = 0)

/-- Drop trailing zero coefficients: `truncate_leading_zeros`, which keeps
arkworks' dense polynomials trimmed. -/
def trim (p : List F) : List F :=
  (p.reverse.dropWhile fun x => decide (x = 0)).reverse

/-- The long-division loop of ark-poly's
`DenseOrSparsePolynomial::divide_with_q_and_r`, on high-degree-first
coefficient lists.  `d0` is the divisor's (nonzero) leading coefficient and
`Dt` its remaining coefficients; each step divides the remainder's leading
coefficient by `d0`, records it as the next quotient coefficient, and
subtracts the matching multiple of the divisor, cancelling the remainder's
head.  The fuel argument, instantiated with the numerator's length, bounds
the number of steps (each step shortens the remainder by one). -/
def divModAux (d0 : F) (Dt : List F) : Nat → List F → List F × List F
  | _, [] => ([], [])
  | 0, r => ([], r)
  | fuel + 1, a :: Nt =>
    if Nt.length < Dt.length then ([], a :: Nt)
    else
      let c := a * d0⁻¹
      let r' := List.zipWith (fun x y => x - y) Nt
        ((Dt.map fun y => c * y) ++ List.replicate (Nt.length - Dt.length) 0)
      let qr := divModAux d0 Dt fuel r'
      (c :: qr.1, qr.2)

/-- `poly_div_q_r` (`src/lib.rs:138`): fails with `DivisorIsZero` when the
divisor is the zero polynomial, otherwise runs the long division of
ark-poly's `divide_with_q_and_r` and returns the quotient's and
remainder's coefficient vectors. -/
def poly_div_q_r (num denom : List F) : Except Error (List F × List F) :=
  if isZeroP denom then .error .DivisorIsZero
  else
    match (trim denom).reverse with
    | [] => .error .DivisorIsZero
    | d0 :: Dt =>
      let qr := divModAux d0 Dt num.reverse.length num.reverse
      .ok (qr.1.reverse, qr.2.reverse)

end PolyDefs

section MsmDefs

variable {F G : Type*} [AddCommMonoid G] [SMul F G]

/-- The mathematical multi-scalar multiplication contract of arkworks'
`VariableBaseMSM::msm_bigint`: the sum of each base scaled by its scalar
(the library converts each scalar to its canonical big-integer
representation first, which denotes the same scalar). -/
def msm_bigint (bases : List G) (scalars : List F) : G :=
  (List.zipWith (fun s b => s • b) scalars bases).sum

/-- `curve_msm` (`src/lib.rs:113`): fails with `TooManyScalars` when there
are more scalars than bases, otherwise runs the MSM over the first
`scalars.length` bases. -/
def curve_msm (bases : List G) (scalars : List F) : Except Error G :=
  if scalars.length > bases.length then
    .error (.TooManyScalars scalars.length bases.length)
  else
    .ok (msm_bigint (bases.take scalars.length) scalars)

end MsmDefs

section ShapeDefs

variable {F : Type*}

/-- The per-row loop of `check_opening_sizes`: the first row whose length
differs from the point count yields `EvalsAndPointsDifferentSizes`. -/
def checkRows (n_points : Nat) : List (List F) → Except Error Unit
  | [] => .ok ()
  | e :: rest =>
    if e.length ≠ n_points then
      .error (.EvalsAndPointsDifferentSizes n_points e.length)
    else checkRows n_points rest

/-- `check_opening_sizes` (`src/lib.rs:236`): the evaluation-row count must
equal the polynomial count, then every row's length must equal the point
count. -/
def check_opening_sizes (evals polys : List (List F)) (points : List F) :
    Except Error Unit :=
  if evals.length ≠ polys.length then
    .error (.EvalsAndPolysDifferentSizes evals.length polys.length)
  else checkRows points.length evals

end ShapeDefs

section TranscriptDefs

variable {F : Type*}

/-- The Fiat-Shamir transcript, abstracted as the ordered log of the
labeled messages appended to it (merlin's `Transcript`). -/
structure Transcript where
  messages : List (String × List UInt8)
  deriving DecidableEq

/-- `Transcript::append_message`: appends one labeled message. -/
def Transcript.append_message (t : Transcript) (label : String)
    (message : List UInt8) : Transcript :=
  ⟨t.messages ++ [(label, message)]⟩

/-- `serialize_compressed` into a slice of `fs` bytes, for a canonical
byte encoding `ser`: succeeds with the encoding exactly when it has the
expected fixed width, as arkworks' writer does. -/
def serElem (ser : F → List UInt8) (fs : Nat) (x : F) :
    Except Error (List UInt8) :=
  if (ser x).length = fs then .ok (ser x) else .error .SerializationError

/-- Serialize a sequence of field elements into consecutive `fs`-byte
slots of one buffer. -/
def serList (ser : F → List UInt8) (fs : Nat) : List F → Except Error (List UInt8)
  | [] => .ok []
  | x :: xs =>
    match serElem ser fs x with
    | .error e => .error e
    | .ok b =>
      match serList ser fs xs with
      | .error e => .error e
      | .ok rest => .ok (b ++ rest)

/-- The evaluation loop of `transcribe_points_and_evals`: for each row
(`i` the index of the first), first the length check against the point
count, then serialization of the row into the buffer. -/
def serRows (ser : F → List UInt8) (fs : Nat) (n_points : Nat) :
    Nat → List (List F) → Except Error (List UInt8)
  | _, [] => .ok []
  | i, e :: rest =>
    if e.length ≠ n_points then
      .error (.EvalsIncorrectSize i e.length n_points)
    else
      match serList ser fs e with
      | .error er => .error er
      | .ok b =>
        match serRows ser fs n_points (i + 1) rest with
        | .error er => .error er
        | .ok tail => .ok (b ++ tail)

/-- `transcribe_points_and_evals` (`src/lib.rs:184`), with the transcript
state threaded explicitly: the whole evaluation buffer is checked and
built first, then appended under `"open evals"`, then the point buffer is
built and appended under `"open points"`.  Returns the final transcript
state together with the result. -/
def transcribe_points_and_evals (ser : F → List UInt8) (fs : Nat)
    (t : Transcript) (points : List F) (evals : List (List F)) :
    Transcript × Except Error Unit :=
  match serRows ser fs points.length 0 evals with
  | .error e => (t, .error e)
  | .ok eval_bytes =>
    let t1 := t.append_message "open evals" eval_bytes
    match serList ser fs points with
    | .error e => (t1, .error e)
    | .ok point_bytes => (t1.append_message "open points" point_bytes, .ok ())

end TranscriptDefs

section DomainDefs

variable {G : Type*} [Zero G]

/-- `Vec::resize(d, zero)`: truncate to `d` elements or pad with zeros up
to `d` elements, as `fft_in_place`/`ifft_in_place` do before
transforming. -/
def resizeList (v : List G) (d : Nat) : List G :=
  v.take d ++ List.replicate (d - v.length) 0

/-- The contract of arkworks' `GeneralEvaluationDomain` over a scalar
field, acting on vectors of group elements: `newDomain n` is the size of
the domain constructed for a requested size `n` (`none` when the field
admits none), at least `n`; `fft d`/`ifft d` transform vectors of length
exactly `d` into vectors of length `d` and are mutually inverse. -/
structure DomainModel (G : Type*) [Zero G] where
  newDomain : Nat → Option Nat
  le_size : ∀ n d, newDomain n = some d → n ≤ d
  fft : Nat → List G → List G
  ifft : Nat → List G → List G
  fft_length : ∀ d v, v.length = d → (fft d v).length = d
  ifft_length : ∀ d v, v.length = d → (ifft d v).length = d
  fft_ifft : ∀ d v, v.length = d → fft d (ifft d v) = v

/-- `EvaluationDomain::fft_in_place`: resize to the domain size, then
transform. -/
def fft_in_place (M : DomainModel G) (d : Nat) (v : List G) : List G :=
  M.fft d (resizeList v d)

/-- `EvaluationDomain::ifft_in_place`: resize to the domain size, then
inverse-transform. -/
def ifft_in_place (M : DomainModel G) (d : Nat) (v : List G) : List G :=
  M.ifft d (resizeList v d)

/-- `Commitment::extend_commitments` (`src/lib.rs:82`): build a domain for
the input length and one for `output_size` (failing with
`DomainConstructionFailed` at the first size admitting none), then apply
the inverse transform over the first domain and the forward transform
over the second to the vector of commitments. -/
def extend_commitments (M : DomainModel G) (commits : List G)
    (output_size : Nat) : Except Error (List G) :=
  match M.newDomain commits.length with
  | none => .error (.DomainConstructionFailed commits.length)
  | some d1 =>
    match M.newDomain output_size with
    | none => .error (.DomainConstructionFailed output_size)
    | some d2 => .ok (fft_in_place M d2 (ifft_in_place M d1 commits))

/-- A concrete `DomainModel` instance over `ℤ` used to evaluate the
`extend_commitments` theorems: radix-2 domain sizes up to `4` (the sizing
of `Radix2EvaluationDomain` for a field of small two-adicity), with the
transforms instantiated as the identity, which satisfies the inversion
contract. -/
def M0 : DomainModel ℤ where
  newDomain n :=
    if n ≤ 1 then some 1 else if n = 2 then some 2
    else if n ≤ 4 then some 4 else none
  le_size := by
    intro n d h
    by_cases h1 : n ≤ 1
    · simp [h1] at h; omega
    · by_cases h2 : n = 2
      · simp [h1, h2] at h; omega
      · by_cases h4 : n ≤ 4
        · simp [h1, h2, h4] at h; omega
        · simp [h1, h2, h4] at h
  fft _ v := v
  ifft _ v := v
  fft_length _ _ h := h
  ifft_length _ _ h := h
  fft_ifft _ _ _ := rfl

end DomainDefs

/-! ## Semantics of coefficient lists -/

section PolyLemmas

open Polynomial

variable {F : Type*} [Field F] [DecidableEq F]

@[simp]
theorem toPoly_nil : toPoly ([] : List F) = 0 := rfl

@[simp]
theorem toPoly_cons (a : F) (t : List F) :
    toPoly (a :: t) = C a + X * toPoly t := rfl

@[simp]
theorem polyOfH_nil : polyOfH ([] : List F) = 0 := rfl

@[simp]
theorem polyOfH_cons (a : F) (t : List F) :
    polyOfH (a :: t) = C a * X ^ t.length + polyOfH t := rfl

theorem polyOfH_append (l m : List F) :
    polyOfH (l ++ m) = polyOfH l * X ^ m.length + polyOfH m := by
  induction l with
  | nil => simp
  | cons a t ih =>
    simp only [List.cons_append, polyOfH_cons, List.length_append, ih]
    rw [pow_add]
    ring

@[simp]
theorem polyOfH_replicate_zero (k : Nat) :
    polyOfH (List.replicate k (0 : F)) = 0 := by
  induction k with
  | zero => simp
  | succ n ih => simp [List.replicate_succ, ih]

theorem polyOfH_map_mul (c : F) (l : List F) :
    polyOfH (l.map fun y => c * y) = C c * polyOfH l := by
  induction l with
  | nil => simp
  | cons a t ih => simp [ih]; ring

theorem polyOfH_zipWith_sub (l m : List F) (h : l.length = m.length) :
    polyOfH (List.zipWith (fun x y => x - y) l m) = polyOfH l - polyOfH m := by
  induction l generalizing m with
  | nil =>
    cases m with
    | nil => simp
    | cons b u => simp at h
  | cons a t ih =>
    cases m with
    | nil => simp at h
    | cons b u =>
      simp only [List.length_cons, Nat.succ.injEq] at h
      simp only [List.zipWith_cons_cons, polyOfH_cons, List.length_zipWith,
        h, Nat.min_self, ih u h]
      rw [C_sub]
      ring

theorem polyOfH_dropWhile_zero (l : List F) :
    polyOfH (l.dropWhile fun x => decide (x = 0)) = polyOfH l := by
  induction l with
  | nil => simp
  | cons a t ih =>
    by_cases ha : a = 0
    · rw [List.dropWhile_cons_of_pos (by simp [ha])]
      simp [ha, ih]
    · rw [List.dropWhile_cons_of_neg (by simp [ha])]

theorem polyOfH_degree_lt (l : List F) :
    (polyOfH l).degree < (l.length : WithBot ℕ) := by
  induction l with
  | nil =>
    simp only [polyOfH_nil, degree_zero, List.length_nil, Nat.cast_zero]
    exact WithBot.bot_lt_coe 0
  | cons a t ih =>
    refine lt_of_le_of_lt (degree_add_le _ _) (max_lt ?_ ?_)
    · refine lt_of_le_of_lt (degree_C_mul_X_pow_le _ _) ?_
      exact_mod_cast Nat.lt_succ_self t.length
    · exact lt_trans ih (by exact_mod_cast Nat.lt_succ_self t.length)

theorem toPoly_eq_polyOfH_reverse (l : List F) :
    toPoly l = polyOfH l.reverse := by
  induction l with
  | nil => simp
  | cons a t ih =>
    simp only [toPoly_cons, List.reverse_cons, polyOfH_append, polyOfH_cons,
      List.length_nil, List.length_reverse, polyOfH_nil, ih,
      List.length_singleton, pow_one, pow_zero, mul_one, add_zero]
    ring

theorem toPoly_coeff (l : List F) (n : Nat) :
    (toPoly l).coeff n = l.getD n 0 := by
  induction l generalizing n with
  | nil => simp
  | cons a t ih =>
    cases n with
    | zero => simp
    | succ k => simp [coeff_X_mul, ih]

theorem toPoly_eq_zero_iff (l : List F) :
    toPoly l = 0 ↔ ∀ x ∈ l, x = 0 := by
  constructor
  · intro h x hx
    obtain ⟨n, hn, rfl⟩ := List.getElem_of_mem hx
    have := toPoly_coeff l n
    rw [h, coeff_zero, List.getD_eq_getElem l 0 hn] at this
    exact this.symm
  · intro h
    ext n
    rw [toPoly_coeff, coeff_zero]
    rcases lt_or_le n l.length with hn | hn
    · rw [List.getD_eq_getElem l 0 hn]
      exact h _ (l.getElem_mem hn)
    · exact List.getD_eq_default l 0 hn

theorem isZeroP_iff (l : List F) : isZeroP l = true ↔ toPoly l = 0 := by
  rw [toPoly_eq_zero_iff, isZeroP, List.all_eq_true]
  simp

theorem toPoly_trim (l : List F) : toPoly (trim l) = toPoly l := by
  rw [toPoly_eq_polyOfH_reverse, toPoly_eq_polyOfH_reverse, trim,
    List.reverse_reverse, polyOfH_dropWhile_zero]

end PolyLemmas

/-! ## List sums as indexed sums -/

section SumLemmas

theorem zipWith_sum_eq {α β M : Type*} [AddCommMonoid M] (f : α → β → M)
    (d1 : α) (d2 : β) (l1 : List α) (l2 : List β) (h : l1.length ≤ l2.length) :
    (List.zipWith f l1 l2).sum =
      ∑ i ∈ Finset.range l1.length, f (l1.getD i d1) (l2.getD i d2) := by
  induction l1 generalizing l2 with
  | nil => simp
  | cons a t ih =>
    cases l2 with
    | nil => simp at h
    | cons b u =>
      simp only [List.length_cons, Nat.succ_le_succ_iff] at h
      rw [List.zipWith_cons_cons, List.sum_cons, List.length_cons,
        Finset.sum_range_succ', ih u h]
      simp [add_comm]

theorem getD_take_eq {α : Type*} (l : List α) (d : α) (n i : Nat) (h : i < n) :
    (l.take n).getD i d = l.getD i d := by
  induction l generalizing n i with
  | nil => simp
  | cons a t ih =>
    cases n with
    | zero => omega
    | succ m =>
      cases i with
      | zero => simp
      | succ j => simpa using ih m j (by omega)

end SumLemmas

/-! ## C2: curve_msm -/

section MsmThm

variable {F G : Type*} [Zero F] [AddCommMonoid G] [SMul F G]

/-- C2: `curve_msm(bases, scalars)` fails with
`TooManyScalars{n_coeffs = len(scalars), expected_max = len(bases)}` if and
only if there are more scalars than bases, and otherwise returns the sum
`Σ scalarᵢ · baseᵢ` over exactly the first `len(scalars)` bases. -/
theorem curve_msm_spec (bases : List G) (scalars : List F) :
    (∀ e, curve_msm bases scalars = .error e ↔
      scalars.length > bases.length ∧
        e = .TooManyScalars scalars.length bases.length)
    ∧ (scalars.length ≤ bases.length →
        curve_msm bases scalars =
          .ok (∑ i ∈ Finset.range scalars.length,
            scalars.getD i 0 • bases.getD i 0)) := by
  constructor
  · intro e
    constructor
    · intro h
      rw [curve_msm] at h
      split at h
      · rename_i hlt
        exact ⟨hlt, by cases h; rfl⟩
      · cases h
    · rintro ⟨hlt, rfl⟩
      rw [curve_msm, if_pos hlt]
  · intro hle
    rw [curve_msm, if_neg (by omega), msm_bigint,
      zipWith_sum_eq _ 0 (0 : G) _ _ (by simp [hle])]
    congr 1
    refine Finset.sum_congr rfl fun i hi => ?_
    rw [Finset.mem_range] at hi
    rw [getD_take_eq _ _ _ _ hi]

end MsmThm

/-! ## C5: check_opening_sizes -/

section ShapeThm

variable {F : Type*}

theorem checkRows_ok (n : Nat) (evals : List (List F))
    (h : ∀ e ∈ evals, e.length = n) : checkRows n evals = .ok () := by
  induction evals with
  | nil => rfl
  | cons e rest ih =>
    rw [checkRows, if_neg (by simp [h e (by simp)])]
    exact ih fun x hx => h x (by simp [hx])

theorem checkRows_first_bad (n : Nat) (evals : List (List F)) (i : Nat)
    (hi : i < evals.length) (hbad : (evals.getD i []).length ≠ n)
    (hgood : ∀ j, j < i → (evals.getD j []).length = n) :
    checkRows n evals =
      .error (.EvalsAndPointsDifferentSizes n (evals.getD i []).length) := by
  induction evals generalizing i with
  | nil => simp at hi
  | cons e rest ih =>
    cases i with
    | zero =>
      simp only [List.getD_cons_zero] at hbad ⊢
      rw [checkRows, if_pos hbad]
    | succ k =>
      have he : e.length = n := by
        have := hgood 0 (Nat.succ_pos k)
        simpa using this
      rw [checkRows, if_neg (by simp [he])]
      simp only [List.getD_cons_succ]
      exact ih k (by simpa using hi) (by simpa using hbad)
        fun j hj => by simpa using hgood (j + 1) (by omega)

/-- C5: `check_opening_sizes(evals, polys, points)` returns
`EvalsAndPolysDifferentSizes` echoing the actual row and polynomial counts
whenever they differ; otherwise it returns
`EvalsAndPointsDifferentSizes` echoing the point count and the length of
the first evaluation row whose length differs from the point count, and
`Ok` when no such row exists. -/
theorem check_opening_sizes_spec (evals polys : List (List F))
    (points : List F) :
    (evals.length ≠ polys.length →
      check_opening_sizes evals polys points =
        .error (.EvalsAndPolysDifferentSizes evals.length polys.length))
    ∧ (evals.length = polys.length →
        ((∀ e ∈ evals, e.length = points.length) →
          check_opening_sizes evals polys points = .ok ())
        ∧ (∀ i, i < evals.length → (evals.getD i []).length ≠ points.length →
            (∀ j, j < i → (evals.getD j []).length = points.length) →
            check_opening_sizes evals polys points =
              .error (.EvalsAndPointsDifferentSizes points.length
                (evals.getD i []).length))) := by
  constructor
  · intro hne
    rw [check_opening_sizes, if_pos hne]
  · intro heq
    constructor
    · intro hall
      rw [check_opening_sizes, if_neg (by omega)]
      exact checkRows_ok _ _ hall
    · intro i hi hbad hgood
      rw [check_opening_sizes, if_neg (by omega)]
      exact checkRows_first_bad _ _ i hi hbad hgood

end ShapeThm

/-! ## C9: linear_combination, C4: vanishing_polynomial -/

section PolyAlgThm

open Polynomial

variable {F : Type*} [Field F] [DecidableEq F]

theorem toPoly_polyAdd (l m : List F) :
    toPoly (polyAdd l m) = toPoly l + toPoly m := by
  induction l generalizing m with
  | nil => simp [polyAdd]
  | cons a t ih =>
    cases m with
    | nil => simp [polyAdd]
    | cons b u =>
      simp only [polyAdd, toPoly_cons, ih, C_add]
      ring

theorem toPoly_map_mul_left (c : F) (l : List F) :
    toPoly (l.map fun y => c * y) = C c * toPoly l := by
  induction l with
  | nil => simp
  | cons a t ih => simp [ih]; ring

theorem toPoly_map_mul_right (c : F) (l : List F) :
    toPoly (l.map fun y => y * c) = C c * toPoly l := by
  rw [← toPoly_map_mul_left]
  simp [mul_comm]

theorem toPoly_foldl_polyAdd (xs : List (List F)) (x : List F) :
    toPoly (xs.foldl (fun a b => polyAdd a b) x) =
      toPoly x + (xs.map toPoly).sum := by
  induction xs generalizing x with
  | nil => simp
  | cons y ys ih =>
    simp only [List.foldl_cons, ih, toPoly_polyAdd, List.map_cons,
      List.sum_cons]
    ring

theorem map_zip_eq_zipWith {α β γ : Type*} (f : α × β → γ) (l1 : List α)
    (l2 : List β) :
    (l1.zip l2).map f = List.zipWith (fun a b => f (a, b)) l1 l2 := by
  induction l1 generalizing l2 with
  | nil => simp
  | cons a t ih =>
    cases l2 with
    | nil => simp
    | cons b u => simp [List.zip_cons_cons, ih]

/-- C9: with at least one polynomial and one challenge per polynomial,
`linear_combination(polys, challenges)` returns a coefficient vector
denoting `Σ challengeᵢ · polyᵢ` summed over every polynomial; with no
polynomials it returns no result (the `None` that callers report as
`NoPolynomialsGiven`). -/
theorem linear_combination_spec (polys : List (List F)) (challenges : List F) :
    (polys ≠ [] → polys.length = challenges.length →
      ∃ res, linear_combination polys challenges = some res ∧
        toPoly res = ∑ i ∈ Finset.range polys.length,
          C (challenges.getD i 0) * toPoly (polys.getD i []))
    ∧ linear_combination ([] : List (List F)) challenges = none := by
  constructor
  · intro hne hlen
    have hsum : ∀ l2 : List F, ∀ l1 : List (List F), l1.length = l2.length →
        (((l1.zip l2).map fun pc => pc.1.map fun y => y * pc.2).map
          toPoly).sum =
          ∑ i ∈ Finset.range l1.length,
            C (l2.getD i 0) * toPoly (l1.getD i []) := by
      intro l2 l1 h
      rw [map_zip_eq_zipWith, List.map_zipWith,
        zipWith_sum_eq _ [] (0 : F) l1 l2 (by omega)]
      exact Finset.sum_congr rfl fun i _ => toPoly_map_mul_right _ _
    cases hm : (polys.zip challenges).map fun pc =>
        pc.1.map fun y => y * pc.2 with
    | nil =>
      exfalso
      cases polys with
      | nil => exact hne rfl
      | cons p pt =>
        cases challenges with
        | nil => simp at hlen
        | cons c ct => simp [List.zip_cons_cons] at hm
    | cons m0 mrest =>
      refine ⟨mrest.foldl (fun a b => polyAdd a b) m0, ?_, ?_⟩
      · rw [linear_combination, hm]
      · rw [toPoly_foldl_polyAdd, ← List.sum_cons, ← List.map_cons, ← hm,
          hsum challenges polys hlen]
  · rfl

theorem toPoly_mulAux (a b : List F) :
    toPoly (mulAux a b) = toPoly a * toPoly b := by
  induction a with
  | nil => simp [mulAux]
  | cons x xs ih =>
    simp only [mulAux, toPoly_polyAdd, toPoly_map_mul_left, toPoly_cons, ih,
      map_zero, zero_add]
    ring

theorem naive_mul_toPoly (a b : List F) :
    toPoly (naive_mul a b) = toPoly a * toPoly b := by
  rw [naive_mul]
  by_cases ha : a.isEmpty
  · rw [if_pos (by simp [ha])]
    rw [List.isEmpty_iff] at ha
    simp [ha]
  · by_cases hb : b.isEmpty
    · rw [if_pos (by simp [hb])]
      rw [List.isEmpty_iff] at hb
      simp [hb]
    · rw [if_neg (by simp [ha, hb]), toPoly_mulAux]

theorem toPoly_foldl_naive_mul (L : List (List F)) (acc : List F) :
    toPoly (L.foldl (fun x y => naive_mul x y) acc) =
      toPoly acc * (L.map toPoly).prod := by
  induction L generalizing acc with
  | nil => simp
  | cons y ys ih =>
    simp only [List.foldl_cons, ih, naive_mul_toPoly, List.map_cons,
      List.prod_cons]
    ring

theorem toPoly_linear_factor (p : F) : toPoly [-p, 1] = X - C p := by
  simp only [toPoly_cons, toPoly_nil, mul_zero, add_zero, map_one, mul_one,
    map_neg]
  ring

theorem prod_X_sub_C_monic (points : List F) :
    ((points.map fun p => X - C p).prod).Monic
    ∧ ((points.map fun p => X - C p).prod).natDegree = points.length := by
  induction points with
  | nil => simpa using monic_one
  | cons p pt ih =>
    simp only [List.map_cons, List.prod_cons, List.length_cons]
    refine ⟨(monic_X_sub_C p).mul ih.1, ?_⟩
    rw [(monic_X_sub_C p).natDegree_mul ih.1, natDegree_X_sub_C, ih.2,
      add_comm]

/-- C4: `vanishing_polynomial(points)` denotes the monic polynomial
`Π (X - pᵢ)` for any list of points (duplicates allowed): its degree is
the number of points, it is monic (leading coefficient `1`), and on the
empty list it is literally the constant polynomial `1`.  Being a total
function, it never fails. -/
theorem vanishing_polynomial_spec (points : List F) :
    toPoly (vanishing_polynomial points) =
      (points.map fun p => X - C p).prod
    ∧ (toPoly (vanishing_polynomial points)).Monic
    ∧ (toPoly (vanishing_polynomial points)).natDegree = points.length
    ∧ vanishing_polynomial ([] : List F) = [1] := by
  have hprod : toPoly (vanishing_polynomial points) =
      (points.map fun p => X - C p).prod := by
    rw [vanishing_polynomial, toPoly_foldl_naive_mul, List.map_map]
    have h1 : toPoly [(1 : F)] = 1 := by simp
    rw [h1, one_mul]
    congr 1
    exact List.map_congr_left fun p _ => toPoly_linear_factor p
  refine ⟨hprod, ?_, ?_, rfl⟩
  · rw [hprod]; exact (prod_X_sub_C_monic points).1
  · rw [hprod]; exact (prod_X_sub_C_monic points).2

end PolyAlgThm

/-! ## C3: poly_div_q_r -/

section DivThm

open Polynomial

variable {F : Type*} [Field F] [DecidableEq F]

theorem divModAux_spec (d0 : F) (hd0 : d0 ≠ 0) (Dt : List F) :
    ∀ fuel (Nh : List F), Nh.length ≤ fuel →
      polyOfH Nh =
        polyOfH (divModAux d0 Dt fuel Nh).1 * polyOfH (d0 :: Dt) +
          polyOfH (divModAux d0 Dt fuel Nh).2
      ∧ (divModAux d0 Dt fuel Nh).2.length ≤ Dt.length
      ∧ (divModAux d0 Dt fuel Nh).1.length = Nh.length - Dt.length := by
  intro fuel
  induction fuel with
  | zero =>
    intro Nh h
    have hnil : Nh = [] := List.length_eq_zero.mp (by omega)
    subst hnil
    simp [divModAux]
  | succ fuel ih =>
    intro Nh h
    cases Nh with
    | nil => simp [divModAux]
    | cons a Nt =>
      by_cases hlt : Nt.length < Dt.length
      · rw [show divModAux d0 Dt (fuel + 1) (a :: Nt) = ([], a :: Nt) by
          rw [divModAux, if_pos hlt]]
        refine ⟨by simp, by simp; omega, by simp; omega⟩
      · push_neg at hlt
        set c := a * d0⁻¹ with hc
        set r' := List.zipWith (fun x y => x - y) Nt
          ((Dt.map fun y => c * y) ++
            List.replicate (Nt.length - Dt.length) 0) with hr'
        have hstep : divModAux d0 Dt (fuel + 1) (a :: Nt) =
            (c :: (divModAux d0 Dt fuel r').1,
              (divModAux d0 Dt fuel r').2) := by
          rw [divModAux, if_neg (by omega)]
        have hlen2 : ((Dt.map fun y => c * y) ++
            List.replicate (Nt.length - Dt.length) (0 : F)).length =
              Nt.length := by
          simp
          omega
        have hr'len : r'.length = Nt.length := by
          rw [hr', List.length_zipWith, hlen2]
          omega
        have hIH := ih r' (by
          rw [hr'len]
          simp only [List.length_cons] at h
          omega)
        obtain ⟨heq, hrem, hqlen⟩ := hIH
        set q1 := (divModAux d0 Dt fuel r').1
        set r1 := (divModAux d0 Dt fuel r').2
        have hk : q1.length = Nt.length - Dt.length := by
          rw [hqlen, hr'len]
        have hr'poly : polyOfH r' =
            polyOfH Nt - C c * polyOfH Dt * X ^ (Nt.length - Dt.length) := by
          rw [hr', polyOfH_zipWith_sub _ _ (hlen2.symm), polyOfH_append,
            polyOfH_replicate_zero, polyOfH_map_mul, List.length_replicate,
            add_zero]
        rw [hstep]
        refine ⟨?_, hrem, by simp [hk]; omega⟩
        have hcd : c * d0 = a := by
          rw [hc]
          field_simp
        have hCc : (C a : Polynomial F) = C c * C d0 := by
          rw [← C_mul, hcd]
        have hpow : X ^ (Nt.length - Dt.length) * X ^ Dt.length =
            (X : Polynomial F) ^ Nt.length := by
          rw [← pow_add]
          congr 1
          omega
        calc polyOfH (a :: Nt) = C a * X ^ Nt.length + polyOfH Nt := rfl
          _ = C c * X ^ q1.length * polyOfH (d0 :: Dt) + polyOfH r' := by
              rw [hr'poly, hk, polyOfH_cons, ← hpow, hCc]
              ring
          _ = polyOfH (c :: q1) * polyOfH (d0 :: Dt) + polyOfH r1 := by
              rw [heq]
              simp only [polyOfH_cons]
              ring

theorem dropWhile_zero_structure (m : List F) (h : ∃ x ∈ m, x ≠ 0) :
    ∃ d0 Dt, m.dropWhile (fun x => decide (x = 0)) = d0 :: Dt ∧ d0 ≠ 0 := by
  induction m with
  | nil => simp at h
  | cons a t ih =>
    by_cases ha : a = 0
    · rw [List.dropWhile_cons_of_pos (by simp [ha])]
      refine ih ?_
      obtain ⟨x, hx, hxne⟩ := h
      rcases List.mem_cons.mp hx with rfl | hxt
      · exact absurd ha hxne
      · exact ⟨x, hxt, hxne⟩
    · rw [List.dropWhile_cons_of_neg (by simp [ha])]
      exact ⟨a, t, rfl, ha⟩

theorem degree_polyOfH_lead (d0 : F) (hd0 : d0 ≠ 0) (Dt : List F) :
    (polyOfH (d0 :: Dt)).degree = (Dt.length : WithBot ℕ) := by
  rw [polyOfH_cons, degree_add_eq_left_of_degree_lt, degree_C_mul_X_pow _ hd0]
  rw [degree_C_mul_X_pow _ hd0]
  exact polyOfH_degree_lt Dt

/-- C3: `poly_div_q_r(num, denom)` fails with `DivisorIsZero` exactly when
the divisor denotes the zero polynomial; for a nonzero divisor it returns
quotient and remainder coefficient vectors with
`num = q · denom + r` and `deg r < deg denom`, and the remainder denotes
zero whenever the divisor divides the numerator (exact division). -/
theorem poly_div_q_r_spec (num denom : List F) :
    (poly_div_q_r num denom = .error .DivisorIsZero ↔ toPoly denom = 0)
    ∧ (toPoly denom ≠ 0 →
        ∃ q r, poly_div_q_r num denom = .ok (q, r)
          ∧ toPoly num = toPoly q * toPoly denom + toPoly r
          ∧ (toPoly r).degree < (toPoly denom).degree
          ∧ (toPoly denom ∣ toPoly num → toPoly r = 0)) := by
  by_cases hz : isZeroP denom = true
  · have h0 : toPoly denom = 0 := (isZeroP_iff denom).mp hz
    refine ⟨⟨fun _ => h0, fun _ => ?_⟩, fun hne => absurd h0 hne⟩
    rw [poly_div_q_r, if_pos hz]
  · have h0 : toPoly denom ≠ 0 := fun h => hz ((isZeroP_iff denom).mpr h)
    have hex : ∃ x ∈ denom.reverse, x ≠ 0 := by
      by_contra hall
      push_neg at hall
      exact h0 ((toPoly_eq_zero_iff denom).mpr
        fun x hx => hall x (List.mem_reverse.mpr hx))
    obtain ⟨d0, Dt, hdrop, hd0⟩ := dropWhile_zero_structure denom.reverse hex
    have htrim : (trim denom).reverse = d0 :: Dt := by
      rw [trim, List.reverse_reverse, hdrop]
    have hD : polyOfH (d0 :: Dt) = toPoly denom := by
      rw [← hdrop, polyOfH_dropWhile_zero, ← toPoly_eq_polyOfH_reverse]
    have hok : poly_div_q_r num denom =
        .ok ((divModAux d0 Dt num.reverse.length num.reverse).1.reverse,
          (divModAux d0 Dt num.reverse.length num.reverse).2.reverse) := by
      rw [poly_div_q_r, if_neg hz, htrim]
    obtain ⟨heq, hrem, -⟩ :=
      divModAux_spec d0 hd0 Dt num.reverse.length num.reverse le_rfl
    set q1 := (divModAux d0 Dt num.reverse.length num.reverse).1
    set r1 := (divModAux d0 Dt num.reverse.length num.reverse).2
    have hq : toPoly q1.reverse = polyOfH q1 := by
      rw [toPoly_eq_polyOfH_reverse, List.reverse_reverse]
    have hr : toPoly r1.reverse = polyOfH r1 := by
      rw [toPoly_eq_polyOfH_reverse, List.reverse_reverse]
    have hmain : toPoly num = toPoly q1.reverse * toPoly denom +
        toPoly r1.reverse := by
      rw [hq, hr, ← hD, ← heq, ← toPoly_eq_polyOfH_reverse]
    have hdeg : (toPoly r1.reverse).degree < (toPoly denom).degree := by
      rw [hr, ← hD, degree_polyOfH_lead d0 hd0 Dt]
      refine lt_of_lt_of_le (polyOfH_degree_lt r1) ?_
      exact_mod_cast hrem
    refine ⟨⟨fun habs => ?_, fun habs => absurd habs h0⟩, fun _ => ?_⟩
    · rw [hok] at habs
      cases habs
    · refine ⟨q1.reverse, r1.reverse, hok, hmain, hdeg, fun hdvd => ?_⟩
      have hdr : toPoly denom ∣ toPoly r1.reverse := by
        have : toPoly r1.reverse =
            toPoly num - toPoly q1.reverse * toPoly denom := by
          rw [hmain]; ring
        rw [this]
        exact dvd_sub hdvd (dvd_mul_left _ _)
      exact eq_zero_of_dvd_of_degree_lt hdr hdeg

end DivThm

/-! ## C6, C10: transcribe_points_and_evals -/

section TranscriptThm

variable {F : Type*}

theorem serElem_of_sized (ser : F → List UInt8) (fs : Nat)
    (hser : ∀ x, (ser x).length = fs) (x : F) :
    serElem ser fs x = .ok (ser x) := by
  rw [serElem, if_pos (hser x)]

theorem serList_of_sized (ser : F → List UInt8) (fs : Nat)
    (hser : ∀ x, (ser x).length = fs) (l : List F) :
    serList ser fs l = .ok (l.map ser).join := by
  induction l with
  | nil => simp [serList]
  | cons x xs ih =>
    rw [serList, serElem_of_sized ser fs hser, ih]
    simp

theorem serList_error_shape (ser : F → List UInt8) (fs : Nat) (l : List F)
    (e : Error) (h : serList ser fs l = .error e) :
    e = .SerializationError := by
  induction l with
  | nil => cases h
  | cons x xs ih =>
    rw [serList] at h
    cases hx : serElem ser fs x with
    | error e1 =>
      rw [hx] at h
      rw [serElem] at hx
      split at hx
      · cases hx
      · cases hx
        cases h
        rfl
    | ok b =>
      rw [hx] at h
      cases hs : serList ser fs xs with
      | error e2 =>
        rw [hs] at h
        cases h
        exact ih hs
      | ok rest =>
        rw [hs] at h
        cases h

theorem serRows_of_sized (ser : F → List UInt8) (fs : Nat) (n : Nat)
    (hser : ∀ x, (ser x).length = fs) (evals : List (List F)) (i0 : Nat)
    (hall : ∀ e ∈ evals, e.length = n) :
    serRows ser fs n i0 evals =
      .ok ((evals.map fun e => (e.map ser).join).join) := by
  induction evals generalizing i0 with
  | nil => simp [serRows]
  | cons e rest ih =>
    rw [serRows, if_neg (by simp [hall e (by simp)]),
      serList_of_sized ser fs hser, ih (i0 + 1) fun x hx => hall x (by simp [hx])]
    simp

theorem serRows_first_bad (ser : F → List UInt8) (fs : Nat) (n : Nat)
    (hser : ∀ x, (ser x).length = fs) (evals : List (List F)) (i0 i : Nat)
    (hi : i < evals.length) (hbad : (evals.getD i []).length ≠ n)
    (hgood : ∀ j, j < i → (evals.getD j []).length = n) :
    serRows ser fs n i0 evals =
      .error (.EvalsIncorrectSize (i0 + i) (evals.getD i []).length n) := by
  induction evals generalizing i0 i with
  | nil => simp at hi
  | cons e rest ih =>
    cases i with
    | zero =>
      simp only [List.getD_cons_zero] at hbad ⊢
      rw [serRows, if_pos hbad, Nat.add_zero]
    | succ k =>
      have he : e.length = n := by
        have := hgood 0 (Nat.succ_pos k)
        simpa using this
      rw [serRows, if_neg (by simp [he]), serList_of_sized ser fs hser]
      simp only [List.getD_cons_succ]
      rw [ih (i0 + 1) k (by simpa using hi) (by simpa using hbad)
        fun j hj => by simpa using hgood (j + 1) (by omega)]
      rw [show i0 + 1 + k = i0 + (k + 1) by omega]

/-- C6: under the fixed-width serialization contract,
`transcribe_points_and_evals` fails with `EvalsIncorrectSize` echoing the
index and length of the first evaluation row whose length differs from the
point count; on success it appends exactly two messages, in order: all
evaluations serialized polynomial-major then point-minor into one buffer
under the label `"open evals"`, then all points serialized into a second
buffer under the label `"open points"`. -/
theorem transcribe_points_and_evals_spec (ser : F → List UInt8) (fs : Nat)
    (t : Transcript) (points : List F) (evals : List (List F))
    (hser : ∀ x, (ser x).length = fs) :
    ((∀ e ∈ evals, e.length = points.length) →
      transcribe_points_and_evals ser fs t points evals =
        (⟨t.messages ++
            [("open evals", (evals.map fun e => (e.map ser).join).join),
             ("open points", (points.map ser).join)]⟩, .ok ()))
    ∧ (∀ i, i < evals.length → (evals.getD i []).length ≠ points.length →
        (∀ j, j < i → (evals.getD j []).length = points.length) →
        transcribe_points_and_evals ser fs t points evals =
          (t, .error (.EvalsIncorrectSize i (evals.getD i []).length
            points.length))) := by
  constructor
  · intro hall
    rw [transcribe_points_and_evals,
      serRows_of_sized ser fs points.length hser evals 0 hall,
      serList_of_sized ser fs hser]
    simp [Transcript.append_message]
  · intro i hi hbad hgood
    rw [transcribe_points_and_evals,
      serRows_first_bad ser fs points.length hser evals 0 i hi hbad hgood]
    simp

/-- A closed instance of C6 at a concrete input: one mis-sized evaluation
row among well-sized ones, with a one-byte encoding of `ZMod 5`. -/
theorem transcribe_points_and_evals_spec_witness :
    transcribe_points_and_evals (fun x : ZMod 5 => [UInt8.ofNat x.val]) 1
        ⟨[]⟩ [(0 : ZMod 5)] [[(1 : ZMod 5)], [1, 2]] =
      (⟨[]⟩, .error (.EvalsIncorrectSize 1 2 1)) :=
  (transcribe_points_and_evals_spec (fun x : ZMod 5 => [UInt8.ofNat x.val])
    1 ⟨[]⟩ [(0 : ZMod 5)] [[(1 : ZMod 5)], [1, 2]] (by decide)).2 1 (by decide)
    (by decide) (by decide)

theorem transcribe_error_cases (ser : F → List UInt8) (fs : Nat)
    (t : Transcript) (points : List F) (evals : List (List F)) (e : Error)
    (h : (transcribe_points_and_evals ser fs t points evals).2 = .error e) :
    (transcribe_points_and_evals ser fs t points evals).1 = t
    ∨ e = .SerializationError := by
  cases hs : serRows ser fs points.length 0 evals with
  | error er =>
    left
    rw [transcribe_points_and_evals, hs]
  | ok eval_bytes =>
    right
    rw [transcribe_points_and_evals, hs] at h
    cases hp : serList ser fs points with
    | error er =>
      rw [hp] at h
      cases h
      exact serList_error_shape ser fs points _ hp
    | ok point_bytes =>
      rw [hp] at h
      cases h

/-- C10: whenever `transcribe_points_and_evals` fails with
`EvalsIncorrectSize`, the transcript is left unchanged: all row-length
checks and the whole evaluation-buffer serialization happen before the
first message is appended. -/
theorem transcribe_points_and_evals_atomic (ser : F → List UInt8) (fs : Nat)
    (t : Transcript) (points : List F) (evals : List (List F))
    (i n expected : Nat)
    (h : (transcribe_points_and_evals ser fs t points evals).2 =
      .error (.EvalsIncorrectSize i n expected)) :
    (transcribe_points_and_evals ser fs t points evals).1 = t := by
  rcases transcribe_error_cases ser fs t points evals _ h with ht | habs
  · exact ht
  · cases habs

/-- A closed instance of C10: the failing call of the C6 witness leaves
the (empty) transcript empty. -/
theorem transcribe_points_and_evals_atomic_witness :
    (transcribe_points_and_evals (fun x : ZMod 5 => [UInt8.ofNat x.val]) 1
      ⟨[]⟩ [(0 : ZMod 5)] [[(1 : ZMod 5)], [1, 2]]).1 = (⟨[]⟩ : Transcript) :=
  transcribe_points_and_evals_atomic (fun x : ZMod 5 => [UInt8.ofNat x.val]) 1
    ⟨[]⟩ [(0 : ZMod 5)] [[(1 : ZMod 5)], [1, 2]] 1 2 1 rfl

end TranscriptThm

/-! ## C1, C7, C8: extend_commitments -/

section DomainThm

variable {G : Type*} [Zero G]

theorem resizeList_length (v : List G) (d : Nat) :
    (resizeList v d).length = d := by
  rw [resizeList]
  simp
  omega

theorem resizeList_self (v : List G) (d : Nat) (h : v.length = d) :
    resizeList v d = v := by
  rw [resizeList, h.symm, List.take_length, Nat.sub_self, List.replicate_zero,
    List.append_nil]

/-- C1: extending a non-empty commitment set whose size `n` admits an
evaluation domain of size exactly `n` to the same size `n` is the
identity: the inverse and forward transforms over the same domain
cancel. -/
theorem extend_commitments_identity (M : DomainModel G) (commits : List G)
    (h1 : commits ≠ []) (h2 : M.newDomain commits.length = some commits.length) :
    extend_commitments M commits commits.length = .ok commits := by
  rw [extend_commitments, h2]
  show Except.ok
    (fft_in_place M commits.length (ifft_in_place M commits.length commits)) =
      .ok commits
  rw [ifft_in_place, resizeList_self _ _ rfl, fft_in_place,
    resizeList_self _ _ (M.ifft_length _ _ rfl), M.fft_ifft _ _ rfl]

/-- A closed instance of C1: two commitments extended to size two over the
concrete domain model come back unchanged. -/
theorem extend_commitments_identity_witness :
    extend_commitments M0 [(5 : ℤ), 7] 2 = .ok [(5 : ℤ), 7] :=
  extend_commitments_identity M0 [(5 : ℤ), 7] (by decide) (by decide)

/-- C7: `extend_commitments` fails with `DomainConstructionFailed(s)`
exactly when the input length or the output size admits no evaluation
domain, `s` being the first offending size (the input length is checked
first), and no other error is ever returned. -/
theorem extend_commitments_domain_error (M : DomainModel G)
    (commits : List G) (output_size : Nat) :
    ∀ e, extend_commitments M commits output_size = .error e ↔
      (M.newDomain commits.length = none ∧
        e = .DomainConstructionFailed commits.length)
      ∨ ((∃ d1, M.newDomain commits.length = some d1) ∧
          M.newDomain output_size = none ∧
          e = .DomainConstructionFailed output_size) := by
  intro e
  cases h1 : M.newDomain commits.length with
  | none =>
    rw [extend_commitments, h1]
    constructor
    · intro h
      cases h
      exact Or.inl ⟨rfl, rfl⟩
    · rintro (⟨-, rfl⟩ | ⟨⟨d1, hd1⟩, -, -⟩)
      · rfl
      · cases hd1
  | some d1 =>
    rw [extend_commitments, h1]
    cases h2 : M.newDomain output_size with
    | none =>
      constructor
      · intro h
        cases h
        exact Or.inr ⟨⟨d1, rfl⟩, rfl, rfl⟩
      · rintro (⟨habs, -⟩ | ⟨-, -, rfl⟩)
        · cases habs
        · rfl
    | some d2 =>
      constructor
      · intro h
        cases h
      · rintro (⟨habs, -⟩ | ⟨-, habs, -⟩)
        · cases habs
        · cases habs

/-- Counterexample to C8 as stated: over the concrete domain model
(radix-2 sizing, as for a large-two-adicity field), extending two
commitments to output size `3` succeeds but returns `4` commitments, not
`3`: `3` is not itself a constructible domain size and the forward
transform works at the domain's size, not at the requested one. -/
theorem extend_commitments_length_cex :
    ∃ res, extend_commitments M0 [(1 : ℤ), 2] 3 = .ok res ∧
      res.length ≠ 3 :=
  ⟨[1, 2, 0, 0], rfl, by decide⟩

/-- C8 amended: on success the returned vector's length is the size of
the evaluation domain constructed for `output_size` — at least
`output_size`, with equality exactly when `output_size` is itself a
constructible domain size. -/
theorem extend_commitments_length (M : DomainModel G) (commits : List G)
    (output_size : Nat) (res : List G)
    (h : extend_commitments M commits output_size = .ok res) :
    ∃ d2, M.newDomain output_size = some d2 ∧ res.length = d2 ∧
      output_size ≤ d2 := by
  rw [extend_commitments] at h
  cases h1 : M.newDomain commits.length with
  | none => rw [h1] at h; cases h
  | some d1 =>
    rw [h1] at h
    cases h2 : M.newDomain output_size with
    | none => rw [h2] at h; cases h
    | some d2 =>
      rw [h2] at h
      cases h
      refine ⟨d2, rfl, ?_, M.le_size _ _ h2⟩
      rw [show fft_in_place M d2 (ifft_in_place M d1 commits) =
        M.fft d2 (resizeList (ifft_in_place M d1 commits) d2) from rfl]
      exact M.fft_length _ _ (resizeList_length _ _)

/-- A closed instance of the amended C8 at the counterexample's input:
the four returned commitments match the domain size `4` built for the
requested output size `3`. -/
theorem extend_commitments_length_witness :
    ∃ d2, M0.newDomain 3 = some d2 ∧
      ([(1 : ℤ), 2, 0, 0] : List ℤ).length = d2 ∧ 3 ≤ d2 :=
  extend_commitments_length M0 [(1 : ℤ), 2] 3 [(1 : ℤ), 2, 0, 0] rfl

end DomainThm

end KZGMP
